import Mathlib

/-!
Shallow embedding of the vector similarity store of
`src/app/services/vector_store.py` (class `VectorStore`).

Modelling conventions:
- Python floats are modelled exactly by `ℚ` (the store only adds, subtracts,
  squares, divides by 100 and takes `min`, all exact on the inputs we reason
  about).
- The Python dict `self.metadata` (insertion-ordered, unique keys) is an
  association list in insertion order; assigning to an existing key replaces
  the value in place, `del` removes the entry.
- The file system is a `Disk` record holding the optional contents of the two
  snapshot files `faiss_index.bin` and `metadata.pkl`; `faiss.write_index` /
  `pickle.dump` and their readers are assumed to round-trip values exactly.
- `raise ValueError` is modelled by `Except.error`; since the dimension checks
  happen before any mutation, fallible operations also return the (unchanged)
  store and disk in the error case.
-/

namespace RAGVectorStore

/-- An embedding vector: a sequence of (float) components. -/
abbrev Vec := List ℚ

/-- Opaque per-document metadata payload (a key/value mapping). -/
abbrev Payload := List (String × String)

/-- Squared Euclidean (L2) distance between two vectors. -/
def sqDist (u v : Vec) : ℚ := (List.zipWith (fun a b => (a - b) ^ 2) u v).sum

/-- The value stored under a `document_id` in `self.metadata`:
`\x7b"faiss_id": idx, "metadata": metadata\x7d`. -/
structure MetaEntry where
  faiss_id : ℤ
  payload : Payload
deriving DecidableEq, Repr

/-- `self.metadata`: insertion-ordered mapping `document_id -> MetaEntry`. -/
abbrev Metadata := List (String × MetaEntry)

/-- Python dict assignment `md[k] = v`: replace in place if `k` is present
(keeping its position in insertion order), else append at the end. -/
def dictInsert (md : Metadata) (k : String) (v : MetaEntry) : Metadata :=
  match md with
  | [] => [(k, v)]
  | e :: rest => if e.1 = k then (k, v) :: rest else e :: dictInsert rest k v

/-- Python `k in md`. -/
def hasKey (md : Metadata) (k : String) : Bool := md.any (fun e => e.1 == k)

/-- Python `del md[k]` (keys of a dict are unique, so erasing the first
occurrence is erasing the occurrence). -/
def delKey (md : Metadata) (k : String) : Metadata :=
  md.eraseP (fun e => e.1 == k)

/-- Python `md[k]` as an optional lookup. -/
def lookupKey (md : Metadata) (k : String) : Option MetaEntry :=
  (md.find? (fun e => e.1 == k)).map (fun e => e.2)

/-- The reverse-resolution loop in `VectorStore.search`: iterate
`self.metadata.items()` in insertion order and return the first entry whose
`faiss_id` equals `idx`, as `(document_id, metadata)`. -/
def resolve (md : Metadata) (idx : ℤ) : Option (String × Payload) :=
  (md.find? (fun e => e.2.faiss_id == idx)).map (fun e => (e.1, e.2.payload))

/-- The FAISS flat index: the configured dimension and the stored vectors in
insertion order (position `i` holds the `i`-th added vector). -/
structure FaissIndex where
  dim : ℕ
  vectors : List Vec
deriving DecidableEq, Repr

/-- `index.ntotal`. -/
def FaissIndex.ntotal (idx : FaissIndex) : ℕ := idx.vectors.length

/-- The comparison FAISS result lists are sorted by: ascending distance,
ties broken by the lower position. Pairs are `(distance, position)`, in the
order the Python loop consumes them (`zip(distances[0], indices[0])`). -/
def pairLE (a b : ℚ × ℤ) : Prop := a.1 < b.1 ∨ (a.1 = b.1 ∧ a.2 ≤ b.2)

instance : DecidableRel pairLE := fun a b => by unfold pairLE; infer_instance

instance : IsTotal (ℚ × ℤ) pairLE := by
  constructor
  intro a b
  unfold pairLE
  rcases lt_trichotomy a.1 b.1 with h | h | h
  · exact Or.inl (Or.inl h)
  · rcases le_total a.2 b.2 with h2 | h2
    · exact Or.inl (Or.inr ⟨h, h2⟩)
    · exact Or.inr (Or.inr ⟨h.symm, h2⟩)
  · exact Or.inr (Or.inl h)

instance : IsTrans (ℚ × ℤ) pairLE := by
  constructor
  intro a b c hab hbc
  unfold pairLE at *
  rcases hab with h1 | ⟨h1, h1'⟩ <;> rcases hbc with h2 | ⟨h2, h2'⟩
  · exact Or.inl (h1.trans h2)
  · exact Or.inl (h2 ▸ h1)
  · exact Or.inl (h1 ▸ h2)
  · exact Or.inr ⟨h1.trans h2, h1'.trans h2'⟩

/-- The `(distance, position)` pair of every stored vector against a query,
in position order, starting at position `n`. -/
def searchPairsFrom (q : Vec) (n : ℕ) : List Vec → List (ℚ × ℤ)
  | [] => []
  | v :: vs => (sqDist q v, (n : ℤ)) :: searchPairsFrom q (n + 1) vs

/-- All `(distance, position)` pairs of an index against a query. -/
def searchPairs (idx : FaissIndex) (q : Vec) : List (ℚ × ℤ) :=
  searchPairsFrom q 0 idx.vectors

/-- The distance FAISS reports for padding entries when `k > ntotal`
(a float of maximal magnitude; its exact value is never inspected by the
store, which filters padding out by its `-1` position). -/
def faissPadDist : ℚ := 340282346638528859811704183484516925440

/-- Modelled from the spec: `faiss.IndexFlatL2.search` (the library call at
`self.index.search(query_embedding, limit)`) is not part of this repository.
Exact brute-force k-nearest-neighbour search by squared L2 distance:
the `min(k, ntotal)` closest `(distance, position)` pairs, ascending by
distance with ties broken by the lower position, padded to exactly `k`
entries with sentinel pairs of position `-1`. -/
def FaissIndex.search (idx : FaissIndex) (q : Vec) (k : ℕ) : List (ℚ × ℤ) :=
  let sorted := List.insertionSort pairLE (searchPairs idx q)
  let top := sorted.take k
  top ++ List.replicate (k - top.length) (faissPadDist, -1)

/-- The in-memory state of a `VectorStore`. -/
structure VectorStore where
  dimension : ℕ
  index : FaissIndex
  metadata : Metadata
deriving DecidableEq, Repr

/-- On-disk state: optional contents of `faiss_index.bin` and `metadata.pkl`. -/
structure Disk where
  index_file : Option FaissIndex
  metadata_file : Option Metadata
deriving DecidableEq, Repr

/-- The fresh-store branch of `__init__`:
`faiss.IndexFlatL2(dimension)` and `self.metadata = \x7b\x7d`. -/
def freshStore (dimension : ℕ) : VectorStore :=
  ⟨dimension, ⟨dimension, []⟩, []⟩

/-- `VectorStore.__init__`: if both snapshot files exist, load them
(`_load_index` and `pickle.load`); otherwise start fresh and empty. -/
def VectorStore.init (disk : Disk) (dimension : ℕ) : VectorStore :=
  match disk.index_file, disk.metadata_file with
  | some idx, some md => ⟨dimension, idx, md⟩
  | _, _ => freshStore dimension

/-- `VectorStore._save_index`: write the index and the metadata to the two
snapshot files (overwriting both). -/
def VectorStore.save_index (s : VectorStore) : Disk :=
  ⟨some s.index, some s.metadata⟩

/-- The error kinds the store's own code can raise (`raise ValueError` on an
embedding/query dimension mismatch). -/
inductive Err where
  | dimensionMismatch (expected got : ℕ)
deriving DecidableEq, Repr

/-- `VectorStore.get_document_count`: returns `self.index.ntotal`. -/
def get_document_count (s : VectorStore) : ℕ := s.index.ntotal

/-- `VectorStore.add_document`: check the embedding dimension, append the
vector to the index, map `document_id` to `ntotal - 1` in the metadata dict,
save to disk, and return the new position. The dimension check precedes every
mutation, so the error case leaves store and disk untouched. -/
def add_document (s : VectorStore) (d : Disk) (document_id : String)
    (embedding : Vec) (pl : Payload) : Except Err ℤ × VectorStore × Disk :=
  if embedding.length ≠ s.dimension then
    (.error (.dimensionMismatch s.dimension embedding.length), s, d)
  else
    let index' : FaissIndex := ⟨s.index.dim, s.index.vectors ++ [embedding]⟩
    let idx : ℤ := (index'.ntotal : ℤ) - 1
    let s' : VectorStore :=
      ⟨s.dimension, index', dictInsert s.metadata document_id ⟨idx, pl⟩⟩
    (.ok idx, s', s'.save_index)

/-- One entry of the list returned by `VectorStore.search`. -/
structure SearchResult where
  document_id : String
  similarity : ℚ
  payload : Payload
  rank : ℕ
deriving DecidableEq, Repr

/-- The result-building loop of `VectorStore.search`:
`for i, (distance, idx) in enumerate(zip(distances[0], indices[0]))`, starting
at loop counter `i`. A raw pair is kept only when some metadata entry resolves
its position to a `document_id` that is truthy (non-empty); the rank recorded
is `i + 1` where `i` counts ALL raw pairs, filtered ones included. -/
def resultsFrom (md : Metadata) (i : ℕ) : List (ℚ × ℤ) → List SearchResult
  | [] => []
  | (dist, idx) :: rest =>
    match resolve md idx with
    | some (doc_id, pl) =>
      if doc_id = "" then resultsFrom md (i + 1) rest
      else ⟨doc_id, 1 - min (dist / 100) 1, pl, i + 1⟩ :: resultsFrom md (i + 1) rest
    | none => resultsFrom md (i + 1) rest

/-- `VectorStore.search`: check the query dimension, run the index search with
`k = limit`, and resolve raw pairs to ranked results. -/
def VectorStore.search (s : VectorStore) (query : Vec) (limit : ℕ) :
    Except Err (List SearchResult) :=
  if query.length ≠ s.dimension then
    .error (.dimensionMismatch s.dimension query.length)
  else
    .ok (resultsFrom s.metadata 0 (s.index.search query limit))

/-- `VectorStore.delete_document`: if the id is absent return `False`
untouched; otherwise delete the metadata entry (the vector stays in the
index), save, and return `True`. -/
def delete_document (s : VectorStore) (d : Disk) (document_id : String) :
    Bool × VectorStore × Disk :=
  if hasKey s.metadata document_id = false then (false, s, d)
  else
    let s' : VectorStore := ⟨s.dimension, s.index, delKey s.metadata document_id⟩
    (true, s', s'.save_index)

/-- Number of live (non-tombstoned) documents: the size of the metadata
dict. Defined for stating claims; the code has no such accessor. -/
def liveCount (s : VectorStore) : ℕ := s.metadata.length

/-- Every metadata entry points at an existing slot of the index:
`0 ≤ faiss_id < ntotal`. -/
def MetaInBounds (s : VectorStore) : Prop :=
  ∀ e ∈ s.metadata, 0 ≤ e.2.faiss_id ∧ e.2.faiss_id < (s.index.ntotal : ℤ)

instance (s : VectorStore) : Decidable (MetaInBounds s) := by
  unfold MetaInBounds; infer_instance

/-- Store states reachable by the operations of the class: a fresh store, or
any store produced from a reachable one by `add_document` (either outcome),
`delete_document`, or saving to disk and re-initialising from that snapshot. -/
inductive Reachable : VectorStore → Prop where
  | fresh (dim : ℕ) : Reachable (freshStore dim)
  | add (s : VectorStore) (d : Disk) (id : String) (emb : Vec) (pl : Payload) :
      Reachable s → Reachable (add_document s d id emb pl).2.1
  | del (s : VectorStore) (d : Disk) (id : String) :
      Reachable s → Reachable (delete_document s d id).2.1
  | load (s : VectorStore) (dim : ℕ) :
      Reachable s → Reachable (VectorStore.init s.save_index dim)

instance {ε α : Type} [DecidableEq ε] [DecidableEq α] : DecidableEq (Except ε α)
  | .error a, .error b =>
    if h : a = b then .isTrue (by rw [h]) else .isFalse (fun hh => h (by injection hh))
  | .error _, .ok _ => .isFalse (fun hh => Except.noConfusion hh)
  | .ok _, .error _ => .isFalse (fun hh => Except.noConfusion hh)
  | .ok a, .ok b =>
    if h : a = b then .isTrue (by rw [h]) else .isFalse (fun hh => h (by injection hh))

/-! ### Concrete scenario states used by counterexamples and witnesses -/

/-- An empty data directory. -/
def demoDisk : Disk := ⟨none, none⟩

/-- Add `"a" ↦ [1, 0]` to a fresh 2-dimensional store. -/
def demoAddA := add_document (freshStore 2) demoDisk "a" [1, 0] []

/-- Then delete `"a"` again. -/
def demoDelA := delete_document demoAddA.2.1 demoAddA.2.2 "a"

/-- A data directory holding only the index file, not the metadata file. -/
def halfDisk : Disk := ⟨some ⟨2, [[1, 0]]⟩, none⟩

/-- Add `"a" ↦ [0, 0]`, then `"b" ↦ [3, 0]`, then delete `"a"`, leaving a
tombstoned vector at position 0. -/
def tombAdd1 := add_document (freshStore 2) demoDisk "a" [0, 0] []

/-- Second step of the tombstone scenario. -/
def tombAdd2 := add_document tombAdd1.2.1 tombAdd1.2.2 "b" [3, 0] []

/-- Third step of the tombstone scenario. -/
def tombDel := delete_document tombAdd2.2.1 tombAdd2.2.2 "a"

/-- The tombstone-scenario store: one live document, two stored vectors. -/
def tombStore := tombDel.2.1

/-- Add `"a" ↦ [1, 0]`, then `"b"` with the very same vector. -/
def selfAdd1 := add_document (freshStore 2) demoDisk "a" [1, 0] []

/-- Second step of the duplicate-vector scenario. -/
def selfAdd2 := add_document selfAdd1.2.1 selfAdd1.2.2 "b" [1, 0] []

/-! ### Helper lemmas -/

theorem lookupKey_dictInsert (md : Metadata) (k : String) (v : MetaEntry) :
    lookupKey (dictInsert md k v) k = some v := by
  induction md with
  | nil => simp [dictInsert, lookupKey]
  | cons e rest ih =>
    by_cases h : e.1 = k
    · simp [dictInsert, h, lookupKey]
    · simpa [dictInsert, h, lookupKey, List.find?_cons, h] using ih

/-! ### C1, C2, C3, C7, C9 -/

/-- C1 counterexample: on a fresh 2-dimensional store, add `"a"` and delete it
again.  The delete succeeds, yet `get_document_count` stays at 1 (the raw
vector count) although no live document remains, so it neither counts live
documents nor decreases by 1 on a successful delete. -/
theorem count_after_delete_cex :
    demoDelA.1 = true ∧
    get_document_count demoAddA.2.1 = 1 ∧
    get_document_count demoDelA.2.1 = 1 ∧
    liveCount demoDelA.2.1 = 0 := by decide

/-- C1 (corrected): `get_document_count` returns the raw vector count
`index.ntotal`, tombstones included, and a successful `delete_document`
leaves it unchanged. -/
theorem delete_leaves_count_unchanged (s : VectorStore) (d : Disk) (id : String)
    (h : (delete_document s d id).1 = true) :
    get_document_count (delete_document s d id).2.1 = get_document_count s ∧
    get_document_count s = s.index.ntotal := by
  by_cases hk : hasKey s.metadata id = false
  · simp [delete_document, hk] at h
  · refine ⟨?_, rfl⟩
    simp [delete_document, hk, get_document_count, FaissIndex.ntotal]

/-- Witness for `delete_leaves_count_unchanged` at the concrete
add-then-delete scenario. -/
theorem delete_leaves_count_unchanged_witness :
    get_document_count (delete_document demoAddA.2.1 demoAddA.2.2 "a").2.1 =
      get_document_count demoAddA.2.1 ∧
    get_document_count demoAddA.2.1 = demoAddA.2.1.index.ntotal :=
  delete_leaves_count_unchanged demoAddA.2.1 demoAddA.2.2 "a" (by decide)

/-- C2 counterexample: a data directory holding only the index file (with one
stored vector) and no metadata file.  `__init__` silently yields the fresh
empty store — there is no `StorageCorruption` failure anywhere in the load
path, which is a total function. -/
theorem load_half_snapshot_cex :
    VectorStore.init halfDisk 2 = freshStore 2 ∧
    get_document_count (VectorStore.init halfDisk 2) = 0 := by decide

/-- C2 (corrected): when either snapshot file is missing — even though the
other one is present — loading silently returns a fresh empty store instead
of failing. -/
theorem init_missing_file_fresh (d : Disk) (dim : ℕ)
    (h : d.index_file = none ∨ d.metadata_file = none) :
    VectorStore.init d dim = freshStore dim := by
  rcases d with ⟨i, m⟩
  rcases h with h | h
  · simp only at h
    subst h
    cases m <;> rfl
  · simp only at h
    subst h
    cases i <;> rfl

/-- Witness for `init_missing_file_fresh` at the one-file disk. -/
theorem init_missing_file_fresh_witness :
    VectorStore.init halfDisk 2 = freshStore 2 :=
  init_missing_file_fresh halfDisk 2 (Or.inr rfl)

/-- C3 counterexample: adding `"a"` twice.  The second `add_document`
succeeds (returns position 1, no `DuplicateKey`), and the previously stored
mapping `"a" ↦ faiss_id 0` is silently overwritten to `"a" ↦ faiss_id 1`. -/
theorem add_duplicate_cex :
    (add_document demoAddA.2.1 demoAddA.2.2 "a" [0, 1] []).1 = .ok 1 ∧
    lookupKey demoAddA.2.1.metadata "a" = some ⟨0, []⟩ ∧
    (add_document demoAddA.2.1 demoAddA.2.2 "a" [0, 1] []).2.1.metadata =
      [("a", ⟨1, []⟩)] := by decide

/-- C3 (corrected): `add_document` with an already-present `document_id` (and
a correctly dimensioned embedding) does not fail; it appends the vector and
silently remaps the id to the newly appended position `ntotal`, orphaning the
old vector. -/
theorem add_duplicate_overwrites (s : VectorStore) (d : Disk) (id : String)
    (emb : Vec) (pl : Payload)
    (hlen : emb.length = s.dimension) (hdup : hasKey s.metadata id = true) :
    (add_document s d id emb pl).1 = .ok ((s.index.ntotal : ℤ)) ∧
    lookupKey (add_document s d id emb pl).2.1.metadata id =
      some ⟨(s.index.ntotal : ℤ), pl⟩ := by
  have hne : ¬(emb.length ≠ s.dimension) := by simp [hlen]
  refine ⟨?_, ?_⟩ <;>
    simp [add_document, hne, FaissIndex.ntotal, lookupKey_dictInsert]

/-- Witness for `add_duplicate_overwrites` at the duplicate-add scenario. -/
theorem add_duplicate_overwrites_witness :
    (add_document demoAddA.2.1 demoAddA.2.2 "a" [0, 1] []).1 =
      .ok ((demoAddA.2.1.index.ntotal : ℤ)) ∧
    lookupKey (add_document demoAddA.2.1 demoAddA.2.2 "a" [0, 1] []).2.1.metadata "a" =
      some ⟨(demoAddA.2.1.index.ntotal : ℤ), []⟩ :=
  add_duplicate_overwrites demoAddA.2.1 demoAddA.2.2 "a" [0, 1] []
    (by decide) (by decide)

/-- C7: saving the store and re-initialising from that snapshot yields a
store with identical search results (for every query and limit) and an
identical document count — serialization round-trips the index and the
metadata exactly. -/
theorem save_load_preserves_search_and_count (s : VectorStore) (q : Vec)
    (limit : ℕ) :
    (VectorStore.init s.save_index s.dimension).search q limit =
      s.search q limit ∧
    get_document_count (VectorStore.init s.save_index s.dimension) =
      get_document_count s := by
  have h : VectorStore.init s.save_index s.dimension = s := by
    cases s
    rfl
  rw [h]
  exact ⟨rfl, rfl⟩

/-- C9: `add_document` with an embedding of the wrong length fails with the
dimension-mismatch error, and the store and the on-disk state are returned
completely unchanged (the check precedes every mutation). -/
theorem add_wrong_dimension_rejected (s : VectorStore) (d : Disk) (id : String)
    (emb : Vec) (pl : Payload) (h : emb.length ≠ s.dimension) :
    add_document s d id emb pl =
      (.error (.dimensionMismatch s.dimension emb.length), s, d) := by
  simp [add_document, h]

/-- Witness for `add_wrong_dimension_rejected`: a 1-component embedding on a
2-dimensional store. -/
theorem add_wrong_dimension_rejected_witness :
    add_document (freshStore 2) demoDisk "x" [1] [] =
      (.error (.dimensionMismatch 2 1), freshStore 2, demoDisk) :=
  add_wrong_dimension_rejected (freshStore 2) demoDisk "x" [1] [] (by decide)

/-! ### C4: rank numbering -/

theorem resultsFrom_rank_ge (md : Metadata) :
    ∀ (l : List (ℚ × ℤ)) (i : ℕ) (r : SearchResult),
      r ∈ resultsFrom md i l → i + 1 ≤ r.rank := by
  intro l
  induction l with
  | nil =>
    intro i r h
    simp [resultsFrom] at h
  | cons p rest ih =>
    intro i r h
    rcases p with ⟨dist, idx⟩
    cases hres : resolve md idx with
    | none =>
      simp only [resultsFrom, hres] at h
      exact Nat.le_of_succ_le (ih (i + 1) r h)
    | some v =>
      rcases v with ⟨doc, pl⟩
      by_cases hdoc : doc = ""
      · simp only [resultsFrom, hres, if_pos hdoc] at h
        exact Nat.le_of_succ_le (ih (i + 1) r h)
      · simp only [resultsFrom, hres, if_neg hdoc] at h
        rcases List.mem_cons.mp h with rfl | h
        · rfl
        · exact Nat.le_of_succ_le (ih (i + 1) r h)

theorem resultsFrom_rank_strict (md : Metadata) :
    ∀ (l : List (ℚ × ℤ)) (i : ℕ),
      ((resultsFrom md i l).map SearchResult.rank).Pairwise (· < ·) := by
  intro l
  induction l with
  | nil =>
    intro i
    simp [resultsFrom]
  | cons p rest ih =>
    intro i
    rcases p with ⟨dist, idx⟩
    cases hres : resolve md idx with
    | none =>
      simp only [resultsFrom, hres]
      exact ih (i + 1)
    | some v =>
      rcases v with ⟨doc, pl⟩
      by_cases hdoc : doc = ""
      · simp only [resultsFrom, hres, if_pos hdoc]
        exact ih (i + 1)
      · simp only [resultsFrom, hres, if_neg hdoc, List.map_cons,
          List.pairwise_cons]
        refine ⟨?_, ih (i + 1)⟩
        intro b hb
        obtain ⟨r, hr, rfl⟩ := List.mem_map.mp hb
        have := resultsFrom_rank_ge md rest (i + 1) r hr
        omega

/-- C4 counterexample: in the tombstone scenario (add `"a" ↦ [0, 0]`, add
`"b" ↦ [3, 0]`, delete `"a"`) the query `[0, 0]` with limit 2 returns the
single live document `"b"` at rank 2, not rank 1: the tombstoned position 0
was filtered out of the list but still consumed a rank number, so the
returned ranks are not the contiguous sequence starting at 1. -/
theorem search_rank_gap_cex :
    tombStore.search [0, 0] 2 = .ok [⟨"b", 91 / 100, [], 2⟩] ∧
    liveCount tombStore = 1 := by with_unfolding_all decide

/-- C4 (corrected): the rank recorded in each result is `i + 1` for the
position `i` of the raw index hit in the full hit list, tombstoned and
unresolved hits included; the ranks of the returned list are therefore
strictly increasing, but they can skip numbers and need not start at 1. -/
theorem search_ranks_strictly_increasing (s : VectorStore) (q : Vec)
    (limit : ℕ) (rs : List SearchResult) (h : s.search q limit = .ok rs) :
    (rs.map SearchResult.rank).Pairwise (· < ·) := by
  unfold VectorStore.search at h
  split at h
  · exact absurd h (by simp)
  · injection h with h
    rw [← h]
    exact resultsFrom_rank_strict s.metadata _ 0

/-- Witness for `search_ranks_strictly_increasing` at the tombstone
scenario. -/
theorem search_ranks_strictly_increasing_witness :
    (([⟨"b", 91 / 100, [], 2⟩] : List SearchResult).map
      SearchResult.rank).Pairwise (· < ·) :=
  search_ranks_strictly_increasing tombStore [0, 0] 2
    [⟨"b", 91 / 100, [], 2⟩] (by with_unfolding_all decide)

/-! ### C5: deleted documents never reappear in search results -/

theorem resolve_mem_keys (md : Metadata) (idx : ℤ) (doc : String) (pl : Payload)
    (h : resolve md idx = some (doc, pl)) : doc ∈ md.map Prod.fst := by
  unfold resolve at h
  cases hf : md.find? (fun e => e.2.faiss_id == idx) with
  | none =>
    rw [hf] at h
    simp at h
  | some e =>
    rw [hf] at h
    have hmem := List.mem_of_find?_eq_some hf
    simp at h
    exact h.1 ▸ List.mem_map_of_mem Prod.fst hmem

theorem resultsFrom_doc_mem_keys (md : Metadata) :
    ∀ (l : List (ℚ × ℤ)) (i : ℕ) (r : SearchResult),
      r ∈ resultsFrom md i l → r.document_id ∈ md.map Prod.fst := by
  intro l
  induction l with
  | nil =>
    intro i r h
    simp [resultsFrom] at h
  | cons p rest ih =>
    intro i r h
    rcases p with ⟨dist, idx⟩
    cases hres : resolve md idx with
    | none =>
      simp only [resultsFrom, hres] at h
      exact ih (i + 1) r h
    | some v =>
      rcases v with ⟨doc, pl⟩
      by_cases hdoc : doc = ""
      · simp only [resultsFrom, hres, if_pos hdoc] at h
        exact ih (i + 1) r h
      · simp only [resultsFrom, hres, if_neg hdoc] at h
        rcases List.mem_cons.mp h with rfl | h
        · exact resolve_mem_keys md idx doc pl hres
        · exact ih (i + 1) r h

theorem not_mem_keys_delKey (md : Metadata) (k : String)
    (hnd : (md.map Prod.fst).Nodup) : k ∉ (delKey md k).map Prod.fst := by
  induction md with
  | nil => simp [delKey]
  | cons e rest ih =>
    rw [List.map_cons, List.nodup_cons] at hnd
    by_cases h : e.1 = k
    · have heq : delKey (e :: rest) k = rest := by
        simp [delKey, List.eraseP_cons, h]
      rw [heq, ← h]
      exact hnd.1
    · have heq : delKey (e :: rest) k = e :: delKey rest k := by
        simp [delKey, List.eraseP_cons, h]
      rw [heq, List.map_cons]
      intro hmem
      rcases List.mem_cons.mp hmem with h1 | h1
      · exact h h1.symm
      · exact ih hnd.2 h1

/-- C5: once `delete_document id` has returned `True` (and `id` was not
re-added), no search — for any query and any limit — includes `id` among its
results: every returned `document_id` is resolved through the metadata dict,
from which `id` has been removed. -/
theorem deleted_id_never_in_results (s : VectorStore) (d : Disk) (id : String)
    (q : Vec) (limit : ℕ) (rs : List SearchResult)
    (hnd : (s.metadata.map Prod.fst).Nodup)
    (hdel : (delete_document s d id).1 = true)
    (hs : ((delete_document s d id).2.1).search q limit = .ok rs) :
    ∀ r ∈ rs, r.document_id ≠ id := by
  by_cases hk : hasKey s.metadata id = false
  · simp [delete_document, hk] at hdel
  · have hst : (delete_document s d id).2.1 =
        ⟨s.dimension, s.index, delKey s.metadata id⟩ := by
      simp [delete_document, hk]
    rw [hst] at hs
    unfold VectorStore.search at hs
    split at hs
    · exact absurd hs (by simp)
    · injection hs with hs
      intro r hr heq
      rw [← hs] at hr
      have hmem := resultsFrom_doc_mem_keys _ _ _ r hr
      rw [heq] at hmem
      exact not_mem_keys_delKey s.metadata id hnd hmem

/-- Witness for `deleted_id_never_in_results`: in the tombstone scenario the
search after deleting `"a"` returns only the `"b"` result, whose id is not
`"a"`. -/
theorem deleted_id_never_in_results_witness :
    SearchResult.document_id ⟨"b", 91 / 100, [], 2⟩ ≠ "a" :=
  deleted_id_never_in_results tombAdd2.2.1 tombAdd2.2.2 "a" [0, 0] 2
    [⟨"b", 91 / 100, [], 2⟩] (by decide) (by decide)
    (by with_unfolding_all decide)
    ⟨"b", 91 / 100, [], 2⟩ (List.mem_singleton.mpr rfl)

/-! ### C10: metadata entries always point into the index -/

theorem mem_dictInsert (md : Metadata) (k : String) (v : MetaEntry)
    (e : String × MetaEntry) (h : e ∈ dictInsert md k v) :
    e ∈ md ∨ e = (k, v) := by
  induction md with
  | nil =>
    rw [dictInsert] at h
    exact Or.inr (List.mem_singleton.mp h)
  | cons e0 rest ih =>
    rw [dictInsert] at h
    by_cases h0 : e0.1 = k
    · rw [if_pos h0] at h
      rcases List.mem_cons.mp h with rfl | h
      · exact Or.inr rfl
      · exact Or.inl (List.mem_cons_of_mem e0 h)
    · rw [if_neg h0] at h
      rcases List.mem_cons.mp h with rfl | h
      · exact Or.inl (List.mem_cons_self _ _)
      · rcases ih h with h1 | h1
        · exact Or.inl (List.mem_cons_of_mem e0 h1)
        · exact Or.inr h1

/-- C10: in every state reachable by the store's operations (from a fresh
store, through adds, deletes, and save/re-init round trips), every metadata
entry's `faiss_id` is a non-negative integer strictly below `index.ntotal`,
so every live document resolves to an existing vector slot. -/
theorem metaInBounds_of_reachable (s : VectorStore) (h : Reachable s) :
    MetaInBounds s := by
  induction h with
  | fresh dim =>
    intro e he
    simp [freshStore] at he
  | add s d id emb pl _ ih =>
    by_cases hlen : emb.length ≠ s.dimension
    · simpa [add_document, hlen] using ih
    · intro e he
      simp only [add_document, if_neg hlen] at he ⊢
      rcases mem_dictInsert _ _ _ _ he with hmem | rfl
      · obtain ⟨h0, h1⟩ := ih e hmem
        refine ⟨h0, ?_⟩
        simp only [FaissIndex.ntotal, List.length_append, List.length_cons,
          List.length_nil] at h1 ⊢
        omega
      · simp only [FaissIndex.ntotal, List.length_append, List.length_cons,
          List.length_nil]
        refine ⟨?_, ?_⟩ <;> (push_cast; omega)
  | del s d id _ ih =>
    by_cases hk : hasKey s.metadata id = false
    · simpa [delete_document, hk] using ih
    · intro e he
      simp only [delete_document, if_neg hk, delKey] at he ⊢
      exact ih e (List.mem_of_mem_eraseP he)
  | load s dim _ ih =>
    intro e he
    exact ih e he

/-- Witness for `metaInBounds_of_reachable` at the store obtained by one add
on a fresh store. -/
theorem metaInBounds_of_reachable_witness :
    MetaInBounds (add_document (freshStore 2) demoDisk "a" [1, 0] []).2.1 :=
  metaInBounds_of_reachable _
    (Reachable.add (freshStore 2) demoDisk "a" [1, 0] [] (Reachable.fresh 2))

/-! ### C6: the index-level search -/

theorem searchPairsFrom_length (q : Vec) :
    ∀ (l : List Vec) (n : ℕ), (searchPairsFrom q n l).length = l.length := by
  intro l
  induction l with
  | nil => intro n; rfl
  | cons v vs ih =>
    intro n
    simp [searchPairsFrom, ih (n + 1)]

theorem mem_searchPairsFrom (q : Vec) :
    ∀ (l : List Vec) (n : ℕ) (p : ℚ × ℤ), p ∈ searchPairsFrom q n l →
      ∃ j : ℕ, j < l.length ∧ p.2 = ((n + j : ℕ) : ℤ) ∧
        p.1 = sqDist q (l.getD j []) := by
  intro l
  induction l with
  | nil =>
    intro n p hp
    simp [searchPairsFrom] at hp
  | cons v vs ih =>
    intro n p hp
    rcases List.mem_cons.mp hp with rfl | hp
    · exact ⟨0, by simp, by simp, rfl⟩
    · obtain ⟨j, hj, hj2, hj3⟩ := ih (n + 1) p hp
      refine ⟨j + 1, by simpa using hj, ?_, hj3⟩
      rw [hj2]
      congr 1
      omega

theorem getD_mem_of_lt {α : Type} (l : List α) (d : α) (j : ℕ)
    (h : j < l.length) : l.getD j d ∈ l := by
  induction l generalizing j with
  | nil => simp at h
  | cons x xs ih =>
    cases j with
    | zero => exact List.mem_cons_self _ _
    | succ j =>
      exact List.mem_cons_of_mem x (ih j (by simpa using h))

/-- C6 counterexample: an index holding a single vector, searched with
`k = 2`, returns 2 pairs — not `min(k, ntotal) = 1` — because FAISS pads
short result lists with sentinel entries of position `-1`. -/
theorem faiss_search_pads_cex :
    ((⟨2, [[0, 0]]⟩ : FaissIndex).search [0, 0] 2).length = 2 ∧
    min 2 (FaissIndex.ntotal ⟨2, [[0, 0]]⟩) = 1 := by
  with_unfolding_all decide

/-- C6 (corrected): the index-level search returns exactly `k` pairs, not
`min(k, ntotal)`. Its first `min(k, ntotal)` pairs are the genuine results:
sorted ascending by squared Euclidean distance under `pairLE` (which breaks
distance ties by the lower position), each carrying a valid position `j`
with its exact squared L2 distance to the query; the remaining pairs are
sentinel padding with position `-1`. -/
theorem faiss_search_spec (idx : FaissIndex) (q : Vec) (k : ℕ) :
    (idx.search q k).length = k ∧
    List.Sorted pairLE ((idx.search q k).take (min k idx.ntotal)) ∧
    (∀ p ∈ (idx.search q k).take (min k idx.ntotal),
      ∃ j : ℕ, j < idx.ntotal ∧ p.2 = (j : ℤ) ∧
        p.1 = sqDist q (idx.vectors.getD j [])) ∧
    (∀ p ∈ (idx.search q k).drop (min k idx.ntotal), p = (faissPadDist, -1)) := by
  have hplen : (searchPairs idx q).length = idx.ntotal :=
    searchPairsFrom_length q idx.vectors 0
  have hslen : (List.insertionSort pairLE (searchPairs idx q)).length =
      idx.ntotal := by
    rw [List.length_insertionSort, hplen]
  have htoplen : ((List.insertionSort pairLE (searchPairs idx q)).take k).length =
      min k idx.ntotal := by
    rw [List.length_take, hslen]
  have hsearch : idx.search q k =
      (List.insertionSort pairLE (searchPairs idx q)).take k ++
        List.replicate
          (k - ((List.insertionSort pairLE (searchPairs idx q)).take k).length)
          (faissPadDist, -1) := rfl
  have htake : (idx.search q k).take (min k idx.ntotal) =
      (List.insertionSort pairLE (searchPairs idx q)).take k := by
    rw [hsearch]
    exact List.take_left' htoplen
  have hdrop : (idx.search q k).drop (min k idx.ntotal) =
      List.replicate
        (k - ((List.insertionSort pairLE (searchPairs idx q)).take k).length)
        (faissPadDist, -1) := by
    rw [hsearch]
    exact List.drop_left' htoplen
  refine ⟨?_, ?_, ?_, ?_⟩
  · rw [hsearch, List.length_append, List.length_replicate, htoplen]
    omega
  · rw [htake]
    exact List.Pairwise.sublist (List.take_sublist k _)
      (List.sorted_insertionSort pairLE _)
  · intro p hp
    rw [htake] at hp
    have hp2 : p ∈ List.insertionSort pairLE (searchPairs idx q) :=
      (List.take_sublist k _).subset hp
    have hp3 : p ∈ searchPairs idx q :=
      (List.mem_insertionSort pairLE).mp hp2
    obtain ⟨j, hj, hj2, hj3⟩ := mem_searchPairsFrom q idx.vectors 0 p hp3
    exact ⟨j, hj, by simpa using hj2, hj3⟩
  · intro p hp
    rw [hdrop] at hp
    exact List.eq_of_mem_replicate hp

/-! ### C8: self-match after add -/

theorem sqDist_self (v : Vec) : sqDist v v = 0 := by
  induction v with
  | nil => rfl
  | cons a u ih =>
    simp only [sqDist, List.zipWith_cons_cons, List.sum_cons] at ih ⊢
    simp [ih]

theorem sqDist_nonneg (u : Vec) : ∀ v : Vec, 0 ≤ sqDist u v := by
  induction u with
  | nil =>
    intro v
    simp [sqDist]
  | cons a u ih =>
    intro v
    cases v with
    | nil => simp [sqDist]
    | cons b v =>
      have h := ih v
      simp only [sqDist, List.zipWith_cons_cons, List.sum_cons] at h ⊢
      exact add_nonneg (sq_nonneg _) h

theorem dictInsert_of_hasKey_false (md : Metadata) (k : String) (v : MetaEntry)
    (h : hasKey md k = false) : dictInsert md k v = md ++ [(k, v)] := by
  induction md with
  | nil => rfl
  | cons e rest ih =>
    have h' : (e.1 == k) = false ∧ hasKey rest k = false := by
      simpa [hasKey, Bool.or_eq_false_iff] using h
    have h1 : ¬(e.1 = k) := by simpa using h'.1
    simp only [dictInsert, if_neg h1, List.cons_append]
    rw [ih h'.2]

theorem resolve_append_of_ne (md1 md2 : Metadata) (i : ℤ)
    (h : ∀ e ∈ md1, e.2.faiss_id ≠ i) :
    resolve (md1 ++ md2) i = resolve md2 i := by
  induction md1 with
  | nil => rfl
  | cons e rest ih =>
    have he : (e.2.faiss_id == i) = false := by
      simpa using h e (List.mem_cons_self _ _)
    simp only [resolve, List.cons_append, List.find?_cons, he]
    exact ih (fun e' he' => h e' (List.mem_cons_of_mem e he'))

theorem insertionSort_head_min (l : List (ℚ × ℤ)) (x : ℚ × ℤ) (hx : x ∈ l)
    (hmin : ∀ y ∈ l, pairLE x y) (hstrict : ∀ y ∈ l, pairLE y x → y = x) :
    ∃ t, List.insertionSort pairLE l = x :: t := by
  have hperm := List.perm_insertionSort pairLE l
  have hsorted := List.sorted_insertionSort pairLE l
  cases hs : List.insertionSort pairLE l with
  | nil =>
    rw [hs] at hperm
    exact absurd (hperm.symm.subset hx) (List.not_mem_nil x)
  | cons h t =>
    rw [hs] at hperm hsorted
    have hhl : h ∈ l := hperm.subset (List.mem_cons_self _ _)
    have hxs : x ∈ h :: t := hperm.mem_iff.mpr hx
    rcases List.mem_cons.mp hxs with rfl | hxt
    · exact ⟨t, rfl⟩
    · have hle : pairLE h x := (List.pairwise_cons.mp hsorted).1 x hxt
      have hhx := hstrict h hhl hle
      exact ⟨t, by rw [hhx]⟩

theorem searchPairsFrom_append (q : Vec) :
    ∀ (l1 l2 : List Vec) (n : ℕ),
      searchPairsFrom q n (l1 ++ l2) =
        searchPairsFrom q n l1 ++ searchPairsFrom q (n + l1.length) l2 := by
  intro l1
  induction l1 with
  | nil =>
    intro l2 n
    simp [searchPairsFrom]
  | cons v vs ih =>
    intro l2 n
    have harg : n + 1 + vs.length = n + (vs.length + 1) := by omega
    simp only [List.cons_append, searchPairsFrom, List.append_eq,
      ih l2 (n + 1), List.length_cons, harg]

/-- C8 counterexample: add `"a" ↦ [1, 0]` on a fresh store, then add the
fresh id `"b"` with the very same embedding and search for it with limit 2.
The just-added `"b"` is not the first result: the FAISS distance tie at 0 is
broken in favour of the lower (earlier) position, so `"a"` takes rank 1 and
`"b"` only rank 2. -/
theorem self_match_duplicate_cex :
    selfAdd2.2.1.search [1, 0] 2 =
      .ok [⟨"a", 1, [], 1⟩, ⟨"b", 1, [], 2⟩] := by
  with_unfolding_all decide

/-- C8 (corrected): if the store's metadata ids lie within the index (true of
every reachable state), the new `document_id` is fresh and non-empty, and the
embedding has nonzero squared distance to every already-stored vector, then
`add_document` followed by `search` with that same embedding and
`limit ≥ 1` returns the new document as the first result, at rank 1, with
similarity exactly 1. -/
theorem fresh_self_match_rank_one (s : VectorStore) (d : Disk) (id : String)
    (emb : Vec) (pl : Payload) (limit : ℕ)
    (hlen : emb.length = s.dimension)
    (hfresh : hasKey s.metadata id = false)
    (hid : id ≠ "")
    (hb : MetaInBounds s)
    (hd : ∀ v ∈ s.index.vectors, sqDist emb v ≠ 0)
    (hlim : 1 ≤ limit) :
    ∃ (n : ℤ) (s' : VectorStore) (d' : Disk) (rest : List SearchResult),
      add_document s d id emb pl = (.ok n, s', d') ∧
      s'.search emb limit = .ok (⟨id, 1, pl, 1⟩ :: rest) := by
  have hne : ¬(emb.length ≠ s.dimension) := by simp [hlen]
  have hidx : ((FaissIndex.mk s.index.dim (s.index.vectors ++ [emb])).ntotal : ℤ) - 1 =
      ((s.index.vectors.length : ℕ) : ℤ) := by
    simp [FaissIndex.ntotal]
  have hadd : add_document s d id emb pl =
      (.ok ((s.index.vectors.length : ℤ)),
       ⟨s.dimension, ⟨s.index.dim, s.index.vectors ++ [emb]⟩,
        s.metadata ++ [(id, ⟨(s.index.vectors.length : ℤ), pl⟩)]⟩,
       (⟨s.dimension, ⟨s.index.dim, s.index.vectors ++ [emb]⟩,
        s.metadata ++ [(id, ⟨(s.index.vectors.length : ℤ), pl⟩)]⟩ :
          VectorStore).save_index) := by
    simp only [add_document, if_neg hne]
    rw [hidx, dictInsert_of_hasKey_false s.metadata id _ hfresh]
  have hpairs : searchPairs ⟨s.index.dim, s.index.vectors ++ [emb]⟩ emb =
      searchPairsFrom emb 0 s.index.vectors ++
        [((0 : ℚ), (s.index.vectors.length : ℤ))] := by
    simp only [searchPairs]
    rw [searchPairsFrom_append]
    simp [searchPairsFrom, sqDist_self]
  have hx : ((0 : ℚ), (s.index.vectors.length : ℤ)) ∈
      searchPairs ⟨s.index.dim, s.index.vectors ++ [emb]⟩ emb := by
    rw [hpairs]
    simp
  have hmin : ∀ y ∈ searchPairs ⟨s.index.dim, s.index.vectors ++ [emb]⟩ emb,
      pairLE ((0 : ℚ), (s.index.vectors.length : ℤ)) y := by
    intro y hy
    rw [hpairs] at hy
    rcases List.mem_append.mp hy with hy | hy
    · obtain ⟨j, hj, hj2, hj3⟩ := mem_searchPairsFrom emb _ 0 y hy
      have hv := getD_mem_of_lt s.index.vectors [] j hj
      have h0 := hd _ hv
      have h1 := sqDist_nonneg emb (s.index.vectors.getD j [])
      have h2 : 0 < y.1 := by
        rw [hj3]
        exact lt_of_le_of_ne h1 (Ne.symm h0)
      exact Or.inl h2
    · rw [List.mem_singleton.mp hy]
      exact Or.inr ⟨rfl, le_refl _⟩
  have hstrict : ∀ y ∈ searchPairs ⟨s.index.dim, s.index.vectors ++ [emb]⟩ emb,
      pairLE y ((0 : ℚ), (s.index.vectors.length : ℤ)) →
        y = ((0 : ℚ), (s.index.vectors.length : ℤ)) := by
    intro y hy hle
    rw [hpairs] at hy
    rcases List.mem_append.mp hy with hy | hy
    · obtain ⟨j, hj, hj2, hj3⟩ := mem_searchPairsFrom emb _ 0 y hy
      have hv := getD_mem_of_lt s.index.vectors [] j hj
      have h0 := hd _ hv
      have h1 := sqDist_nonneg emb (s.index.vectors.getD j [])
      have h2 : 0 < y.1 := by
        rw [hj3]
        exact lt_of_le_of_ne h1 (Ne.symm h0)
      rcases hle with h | ⟨h, _⟩
      · exact absurd h (by simp only; linarith)
      · exact absurd h (by simp only; linarith)
    · exact List.mem_singleton.mp hy
  obtain ⟨t, hsort⟩ := insertionSort_head_min _ _ hx hmin hstrict
  obtain ⟨m, rfl⟩ : ∃ m, limit = m + 1 := ⟨limit - 1, by omega⟩
  have hraw : FaissIndex.search ⟨s.index.dim, s.index.vectors ++ [emb]⟩ emb
      (m + 1) =
      ((0 : ℚ), (s.index.vectors.length : ℤ)) ::
        (t.take m ++
          List.replicate
            ((m + 1) -
              (((0 : ℚ), (s.index.vectors.length : ℤ)) :: t.take m).length)
            (faissPadDist, -1)) := by
    simp only [FaissIndex.search]
    rw [hsort, List.take_succ_cons, List.cons_append]
  have hresolve : resolve
      (s.metadata ++ [(id, ⟨(s.index.vectors.length : ℤ), pl⟩)])
      (s.index.vectors.length : ℤ) = some (id, pl) := by
    rw [resolve_append_of_ne]
    · simp [resolve]
    · intro e he hcontra
      have h2 := (hb e he).2
      simp only [FaissIndex.ntotal] at h2
      omega
  have harith : (1 : ℚ) - min ((0 : ℚ) / 100) 1 = 1 := by
    rw [zero_div, min_eq_left (by norm_num : (0 : ℚ) ≤ 1), sub_zero]
  refine ⟨_, _, _, ?_, hadd, ?_⟩
  · exact resultsFrom
      (s.metadata ++ [(id, ⟨(s.index.vectors.length : ℤ), pl⟩)]) 1
      (t.take m ++
        List.replicate
          ((m + 1) -
            (((0 : ℚ), (s.index.vectors.length : ℤ)) :: t.take m).length)
          (faissPadDist, -1))
  · simp only [VectorStore.search]
    rw [if_neg hne, hraw]
    simp only [resultsFrom, hresolve, if_neg hid]
    rw [harith]

/-- Witness for `fresh_self_match_rank_one`: adding `"a" ↦ [1, 0]` to a
fresh 2-dimensional store and searching for `[1, 0]` with limit 1. -/
theorem fresh_self_match_rank_one_witness :
    ∃ (n : ℤ) (s' : VectorStore) (d' : Disk) (rest : List SearchResult),
      add_document (freshStore 2) demoDisk "a" [1, 0] [] = (.ok n, s', d') ∧
      s'.search [1, 0] 1 = .ok (⟨"a", 1, [], 1⟩ :: rest) :=
  fresh_self_match_rank_one (freshStore 2) demoDisk "a" [1, 0] [] 1
    (by decide) (by decide) (by decide) (by decide) (by decide) (by decide)

end RAGVectorStore
